import Mathlib

/-!
Verification development for the pinyin-mapping generator
(`generate_pinyin_map.py`).  Python strings are embedded as `List Char`
(Python strings are sequences of Unicode code points, as is `List Char`);
machine-level behaviour of the standard library that the script calls
(`str.strip`, `str.split`, `unicodedata`, the `gb2312` codec, `str.lower`,
the regex `[^a-z]`) is translated into executable Lean functions below,
with finite Unicode data tables where the full tables are not needed.
-/

namespace PinyinGen

/-- Whitespace test used by Python's `str.strip()` and argument-less
`str.split()`, modelled on the ASCII whitespace repertoire
(space, tab, newline, carriage return, vertical tab, form feed);
the exotic Unicode spaces never occur in the data handled here. -/
def isPySpace (c : Char) : Bool :=
  (c.toNat == 0x20) || (c.toNat == 0x9) || (c.toNat == 0xA) ||
  (c.toNat == 0xD) || (c.toNat == 0xB) || (c.toNat == 0xC)

/-- Python `s.strip()`: remove leading and trailing whitespace. -/
def pyStrip (l : List Char) : List Char :=
  ((l.dropWhile isPySpace).reverse.dropWhile isPySpace).reverse

/-- Python `s.split(sep)` for a one-character separator: split at every
occurrence, keeping empty parts; the result is never the empty list. -/
def splitOnChar (sep : Char) : List Char → List (List Char)
  | [] => [[]]
  | c :: cs =>
    if c = sep then [] :: splitOnChar sep cs
    else
      match splitOnChar sep cs with
      | [] => [[c]]
      | p :: ps => (c :: p) :: ps

/-- Python `sep.join(parts)` for a one-character separator. -/
def joinWith (sep : Char) : List (List Char) → List Char
  | [] => []
  | [x] => x
  | x :: y :: xs => x ++ sep :: joinWith sep (y :: xs)

/-- Canonical (NFD) decomposition of the accented Latin letters that occur
in pinyin romanizations (the four tone marks over a e i o u and u-diaeresis,
plus the tonal n and m forms), taken from the Unicode decomposition data;
identity on every other non-ASCII character (no other decomposable
character occurs in the data handled here). -/
def nfdTable (c : Char) : List Char :=
  match c with
  | 'à' => ['a', '̀'] | 'á' => ['a', '́'] | 'ā' => ['a', '̄'] | 'ǎ' => ['a', '̌']
  | 'è' => ['e', '̀'] | 'é' => ['e', '́'] | 'ē' => ['e', '̄'] | 'ě' => ['e', '̌']
  | 'ê' => ['e', '̂']
  | 'ì' => ['i', '̀'] | 'í' => ['i', '́'] | 'ī' => ['i', '̄'] | 'ǐ' => ['i', '̌']
  | 'ò' => ['o', '̀'] | 'ó' => ['o', '́'] | 'ō' => ['o', '̄'] | 'ǒ' => ['o', '̌']
  | 'ù' => ['u', '̀'] | 'ú' => ['u', '́'] | 'ū' => ['u', '̄'] | 'ǔ' => ['u', '̌']
  | 'ü' => ['u', '̈']
  | 'ǖ' => ['u', '̈', '̄'] | 'ǘ' => ['u', '̈', '́']
  | 'ǚ' => ['u', '̈', '̌'] | 'ǜ' => ['u', '̈', '̀']
  | 'ń' => ['n', '́'] | 'ň' => ['n', '̌'] | 'ǹ' => ['n', '̀']
  | 'ḿ' => ['m', '́']
  | _ => [c]

/-- Per-character NFD decomposition; ASCII characters are NFD-invariant. -/
def nfdChar (c : Char) : List Char :=
  if c.toNat < 0x80 then [c] else nfdTable c

/-- Unicode general category `Mn` (nonspacing combining mark) test, modelled
on the Combining Diacritical Marks block, which contains every mark produced
by `nfdTable`. -/
def isMn (c : Char) : Bool :=
  decide (0x300 ≤ c.toNat) && decide (c.toNat ≤ 0x36F)

/-- `unicodedata.normalize('NFD', s)`, character by character. -/
def nfdStr : List Char → List Char
  | [] => []
  | c :: cs => nfdChar c ++ nfdStr cs

/-- `strip_accents` of the source: NFD-decompose, then drop every
combining mark. -/
def strip_accents (s : List Char) : List Char :=
  (nfdStr s).filter (fun c => !isMn c)

/-- Python `str.lower()`, modelled on the ASCII range (the only characters
reaching it here are ASCII letters and undecomposed symbols); identity
elsewhere. -/
def pyLower (c : Char) : Char :=
  if 0x41 ≤ c.toNat ∧ c.toNat ≤ 0x5A then Char.ofNat (c.toNat + 0x20) else c

/-- The character class kept by the regex substitution
`re.sub(r'[^a-z]', '', s)`: exactly the lowercase ASCII letters. -/
def isLowerAlpha (c : Char) : Bool :=
  decide (0x61 ≤ c.toNat) && decide (c.toNat ≤ 0x7A)

/-- Lines 57-59 of the source: `strip_accents(p).lower()` followed by
removal of every character outside `a`-`z`. -/
def normalizeToken (p : List Char) : List Char :=
  ((strip_accents p).map pyLower).filter isLowerAlpha

/-- Finite sample of the non-ASCII part of the GB2312 repertoire, enough
for the concrete inputs considered in this development. -/
def gb2312Table : List Char :=
  ['一', '丁', '马', '吗', '妈', '们', '中', '二']

/-- Membership of one character in the GB2312 repertoire: the codec maps
the ASCII range through unchanged and encodes a fixed repertoire of
CJK characters, modelled here by `gb2312Table`.  None of the theorems
below depends on the exact extent of the repertoire beyond this shape. -/
def gb2312Char (c : Char) : Bool :=
  decide (c.toNat < 0x80) || gb2312Table.contains c

/-- Python `s.encode('gb2312')` succeeds exactly when every character of
`s` is in the repertoire; in particular the empty string always encodes. -/
def gb2312Encodable (s : List Char) : Bool :=
  s.all gb2312Char

/-- The in-memory mapping `pinyin_map`: association list from canonical
key to the list of distinct annotation strings inserted for it (the
Python `set`, kept in insertion order; the program only ever observes it
through `sorted`, so the internal order is irrelevant). -/
abbrev PMap := List (List Char × List (List Char))

/-- `pinyin_map[p_clean].add(character)` on a `defaultdict(set)`: create
the key with a singleton set if absent, otherwise add the value to the
existing set (duplicates are absorbed). -/
def addToMap (m : PMap) (k v : List Char) : PMap :=
  match m with
  | [] => [(k, [v])]
  | (k0, vs) :: rest =>
    if k0 = k then (k0, if v ∈ vs then vs else vs ++ [v]) :: rest
    else (k0, vs) :: addToMap rest k v

/-- The keys of the mapping, in insertion order. -/
def mapKeys (m : PMap) : List (List Char) :=
  m.map Prod.fst

/-- The character set stored for a key (empty list if the key is absent). -/
def lookupMap (m : PMap) (k : List Char) : List (List Char) :=
  match m with
  | [] => []
  | (k0, vs) :: rest => if k0 = k then vs else lookupMap rest k

/-- Lines 25-35 of the source: strip the line, skip it when empty or when
it starts with a comment hash, split on every hash, skip when fewer than
two parts result, and return the stripped first part (`content`) together
with the stripped second part (`character`). -/
def parseLine (rawLine : List Char) : Option (List Char × List Char) :=
  if pyStrip rawLine = [] then none
  else if (pyStrip rawLine).head? = some '#' then none
  else if (splitOnChar '#' (pyStrip rawLine)).length < 2 then none
  else some (pyStrip ((splitOnChar '#' (pyStrip rawLine)).getD 0 []),
             pyStrip ((splitOnChar '#' (pyStrip rawLine)).getD 1 []))

/-- Lines 48-49 of the source: the romanization tokens of a content field,
namely the text after the first colon, stripped, then split on commas. -/
def lineTokens (content : List Char) : List (List Char) :=
  splitOnChar ',' (pyStrip ((splitOnChar ':' content).getD 1 []))

/-- Lines 24-62 of the source, for one line: parse it, reject annotations
outside GB2312, require a colon in the content, split the romanization
list on commas and, for each stripped nonempty token whose normalization
is nonempty, insert (normalization, annotation) into the mapping. -/
def processLine (m : PMap) (rawLine : List Char) : PMap :=
  match parseLine rawLine with
  | none => m
  | some (content, character) =>
    if gb2312Encodable character then
      if ':' ∈ content then
        (lineTokens content).foldl (fun acc p =>
          if pyStrip p = [] then acc
          else if normalizeToken (pyStrip p) = [] then acc
          else addToMap acc (normalizeToken (pyStrip p)) character) m
      else m
    else m

/-- The canonical keys a content field contributes: the nonempty
normalizations of its stripped romanization tokens. -/
def lineKeys (content : List Char) : List (List Char) :=
  ((lineTokens content).map (fun p => normalizeToken (pyStrip p))).filter
    (fun k => decide (k ≠ []))

/-- The contribution of one input line: `some (character, keys)` when the
line passes every guard of `processLine`, `none` when it is skipped. -/
def lineCharKeys (rawLine : List Char) : Option (List Char × List (List Char)) :=
  match parseLine rawLine with
  | none => none
  | some (content, character) =>
    if gb2312Encodable character then
      if ':' ∈ content then some (character, lineKeys content)
      else none
    else none

/-- Lines 23-62 of the source: split the fetched text on newlines and fold
every line into the mapping. -/
def buildMap (data : List Char) : PMap :=
  (splitOnChar '\n' data).foldl processLine []

/-- Python string comparison `<`: lexicographic by code point, a strict
prefix being smaller. -/
def strLt : List Char → List Char → Bool
  | [], [] => false
  | [], _ :: _ => true
  | _ :: _, [] => false
  | a :: s, b :: t => if a < b then true else if b < a then false else strLt s t

/-- Insertion step of `sorted` (stable, ascending). -/
def insertStr (x : List Char) : List (List Char) → List (List Char)
  | [] => [x]
  | y :: ys => if strLt x y then x :: y :: ys else y :: insertStr x ys

/-- Python `sorted` on a list of strings (insertion sort; stable,
ascending by `strLt`). -/
def sortStrs : List (List Char) → List (List Char)
  | [] => []
  | x :: xs => insertStr x (sortStrs xs)

/-- Line 71-73 of the source: the output line for key `p` is the key, one
space, then the sorted character set joined by single spaces. -/
def serializeEntry (m : PMap) (p : List Char) : List Char :=
  p ++ ' ' :: joinWith ' ' (sortStrs (lookupMap m p))

/-- Lines 67-74: one serialized line per key, keys in sorted order. -/
def outputLines (m : PMap) : List (List Char) :=
  (sortStrs (mapKeys m)).map (serializeEntry m)

/-- Lines 76-77: the content written to `pinyin_mapping.txt`, the output
lines joined by single newlines. -/
def fileContent (m : PMap) : List Char :=
  joinWith '\n' (outputLines m)

/-- The fixed source URL. -/
def url : List Char :=
  ("https://raw.githubusercontent.com/mozillazg/pinyin-data/master/pinyin.txt").data

/-- Line 12: the download progress message. -/
def downloadMsg : List Char :=
  ("Downloading ").data ++ url ++ ("...").data

/-- Line 64: the key-count progress message. -/
def processedMsg (n : Nat) : List Char :=
  ("Processed ").data ++ (Nat.repr n).data ++ (" unique pinyin syllables.").data

/-- Line 79: the completion message. -/
def doneMsg : List Char :=
  ("Done. Saved to pinyin_mapping.txt").data

/-- Observable side effects of a run, in program order. -/
inductive Event where
  | print : List Char → Event
  | fileWrite : List Char → Event
deriving DecidableEq

/-- The whole of `generate_mapping()`: the fetch-and-decode step is the
one fallible operation and is passed in as an `Except`; the result is the
ordered trace of side effects together with the propagated error, if any.
On a fetch or decoding failure only the download message has been printed
and the run aborts; on success the count is printed, the file is written
once, and the completion message is printed. -/
def runEvents (fetch : Except (List Char) (List Char)) :
    List Event × Option (List Char) :=
  match fetch with
  | Except.error e => ([Event.print downloadMsg], some e)
  | Except.ok data =>
    let m := buildMap data
    ([Event.print downloadMsg,
      Event.print (processedMsg m.length),
      Event.fileWrite (fileContent m),
      Event.print doneMsg], none)

/-- The lines printed to standard output during a trace. -/
def printedLines (evs : List Event) : List (List Char) :=
  evs.filterMap (fun e => match e with
    | Event.print s => some s
    | Event.fileWrite _ => none)

/-- Modelled from the spec: the character annotation as claim C6 describes
it, namely the entire text after the first hash character of the line
(empty when the line has no hash). -/
def afterFirstHash : List Char → List Char
  | [] => []
  | c :: cs => if c = '#' then cs else afterFirstHash cs

/-- Helper for whitespace splitting: `acc` is the reversed current token. -/
def splitWsAux : List Char → List Char → List (List Char)
  | [], acc => if acc = [] then [] else [acc.reverse]
  | c :: cs, acc =>
    if isPySpace c then
      if acc = [] then splitWsAux cs [] else acc.reverse :: splitWsAux cs []
    else splitWsAux cs (c :: acc)

/-- Python argument-less `s.split()`: split on whitespace runs, no empty
tokens. -/
def pySplitWs (l : List Char) : List (List Char) :=
  splitWsAux l []

/-- Modelled from the spec: the parse procedure of the round-trip claim —
split the written file into lines, split each line on whitespace, take the
first token as the key and the remaining tokens as its character set
(a line with no token contributes nothing). -/
def parseOutput (content : List Char) : List (List Char × List (List Char)) :=
  (splitOnChar '\n' content).filterMap (fun l =>
    match pySplitWs l with
    | [] => none
    | k :: cs => some (k, cs))

/-- The mapping in canonical form: keys sorted, each character set
sorted.  Two mappings with the same keys and the same sets have the same
canonical form, and conversely. -/
def canonicalMap (m : PMap) : List (List Char × List (List Char)) :=
  (sortStrs (mapKeys m)).map (fun p => (p, sortStrs (lookupMap m p)))

/-- Every stored character string is nonempty and whitespace-free. -/
def mapOk (m : PMap) : Bool :=
  m.all (fun kv => kv.2.all (fun ch => (!ch.isEmpty) && ch.all (fun c => !isPySpace c)))

/-! ### Basic lemmas about splitting and stripping -/

theorem splitOnChar_ne_nil (sep : Char) (l : List Char) : splitOnChar sep l ≠ [] := by
  induction l with
  | nil => simp [splitOnChar]
  | cons c cs ih =>
    simp only [splitOnChar]
    split
    · simp
    · cases h : splitOnChar sep cs <;> simp [h]

theorem splitOnChar_not_mem (sep : Char) (l : List Char) (h : sep ∉ l) :
    splitOnChar sep l = [l] := by
  induction l with
  | nil => rfl
  | cons c cs ih =>
    have hc : ¬ c = sep := fun he => h (he ▸ List.mem_cons_self c cs)
    have hcs : sep ∉ cs := fun hm => h (List.mem_cons_of_mem c hm)
    simp only [splitOnChar, if_neg hc, ih hcs]

theorem splitOnChar_append (sep : Char) (a b : List Char) (h : sep ∉ a) :
    splitOnChar sep (a ++ sep :: b) = a :: splitOnChar sep b := by
  induction a with
  | nil => simp [splitOnChar]
  | cons c a' ih =>
    have hc : ¬ c = sep := fun he => h (he ▸ List.mem_cons_self c a')
    have ha' : sep ∉ a' := fun hm => h (List.mem_cons_of_mem c hm)
    simp only [List.cons_append, splitOnChar, if_neg hc]
    show (match splitOnChar sep (a' ++ sep :: b) with
          | [] => [[c]]
          | p :: ps => (c :: p) :: ps) = (c :: a') :: splitOnChar sep b
    rw [ih ha']

theorem mem_of_mem_splitOnChar (sep : Char) (l p : List Char) (x : Char)
    (hp : p ∈ splitOnChar sep l) (hx : x ∈ p) : x ∈ l := by
  induction l generalizing p with
  | nil =>
    simp only [splitOnChar, List.mem_singleton] at hp
    subst hp; cases hx
  | cons c cs ih =>
    simp only [splitOnChar] at hp
    by_cases hc : c = sep
    · rw [if_pos hc] at hp
      rcases List.mem_cons.mp hp with h1 | h1
      · subst h1; cases hx
      · exact List.mem_cons_of_mem c (ih p h1 hx)
    · rw [if_neg hc] at hp
      cases h : splitOnChar sep cs with
      | nil => exact absurd h (splitOnChar_ne_nil sep cs)
      | cons q qs =>
        rw [h] at hp
        rcases List.mem_cons.mp hp with h1 | h1
        · subst h1
          rcases List.mem_cons.mp hx with h2 | h2
          · exact h2 ▸ List.mem_cons_self c cs
          · exact List.mem_cons_of_mem c (ih q (h ▸ List.mem_cons_self q qs) h2)
        · exact List.mem_cons_of_mem c (ih p (h ▸ List.mem_cons_of_mem q h1) hx)

theorem joinWith_splitOnChar (sep : Char) (l : List Char) :
    joinWith sep (splitOnChar sep l) = l := by
  induction l with
  | nil => rfl
  | cons c cs ih =>
    cases h : splitOnChar sep cs with
    | nil => exact absurd h (splitOnChar_ne_nil sep cs)
    | cons q qs =>
      rw [h] at ih
      by_cases hc : c = sep
      · have h1 : splitOnChar sep (c :: cs) = [] :: q :: qs := by
          simp only [splitOnChar, if_pos hc, h]
        rw [h1]
        show sep :: joinWith sep (q :: qs) = c :: cs
        rw [ih, hc]
      · have h1 : splitOnChar sep (c :: cs) = (c :: q) :: qs := by
          simp only [splitOnChar, if_neg hc, h]
        rw [h1]
        cases qs with
        | nil =>
          show c :: q = c :: cs
          rw [show joinWith sep [q] = q from rfl] at ih
          rw [ih]
        | cons r rs =>
          show (c :: q) ++ sep :: joinWith sep (r :: rs) = c :: cs
          rw [show joinWith sep (q :: r :: rs) = q ++ sep :: joinWith sep (r :: rs) from rfl]
            at ih
          rw [List.cons_append, ih]

theorem splitOnChar_joinWith (sep : Char) (ps : List (List Char))
    (h : ∀ p ∈ ps, sep ∉ p) (hne : ps ≠ []) :
    splitOnChar sep (joinWith sep ps) = ps := by
  induction ps with
  | nil => exact absurd rfl hne
  | cons x xs ih =>
    cases xs with
    | nil => simpa [joinWith] using splitOnChar_not_mem sep x (h x (List.mem_cons_self x []))
    | cons y ys =>
      have hx : sep ∉ x := h x (List.mem_cons_self x (y :: ys))
      have hxs : ∀ p ∈ y :: ys, sep ∉ p := fun p hp => h p (List.mem_cons_of_mem x hp)
      simp only [joinWith]
      rw [splitOnChar_append sep x _ hx, ih hxs (by simp)]

theorem exists_first_occurrence (c : Char) (l : List Char) (h : c ∈ l) :
    ∃ a b, l = a ++ c :: b ∧ c ∉ a := by
  induction l with
  | nil => cases h
  | cons d ds ih =>
    by_cases hd : d = c
    · exact ⟨[], ds, by rw [hd]; rfl, by simp⟩
    · have hc : c ∈ ds := by
        rcases List.mem_cons.mp h with h1 | h1
        · exact absurd h1.symm hd
        · exact h1
      obtain ⟨a, b, hab, hna⟩ := ih hc
      exact ⟨d :: a, b, by rw [hab]; rfl, by
        intro hm
        rcases List.mem_cons.mp hm with h1 | h1
        · exact hd h1.symm
        · exact hna h1⟩

theorem afterFirstHash_append (a b : List Char) (h : '#' ∉ a) :
    afterFirstHash (a ++ '#' :: b) = b := by
  induction a with
  | nil => simp [afterFirstHash]
  | cons c a' ih =>
    have hc : ¬ c = '#' := fun he => h (he ▸ List.mem_cons_self c a')
    have ha' : '#' ∉ a' := fun hm => h (List.mem_cons_of_mem c hm)
    simp only [List.cons_append, afterFirstHash, if_neg hc]
    exact ih ha'

theorem pyStrip_eq_nil (l : List Char) (h : ∀ c ∈ l, isPySpace c = true) :
    pyStrip l = [] := by
  unfold pyStrip
  rw [List.dropWhile_eq_nil_iff.mpr h]
  rfl

/-! ### Claim C4: a non-comment line with no hash contributes nothing -/

theorem parseLine_eq_none_of_no_hash (l : List Char)
    (h1 : '#' ∉ pyStrip l) (h2 : pyStrip l ≠ []) : parseLine l = none := by
  unfold parseLine
  rw [if_neg h2]
  have hh : ¬ (pyStrip l).head? = some '#' := by
    cases ht : pyStrip l with
    | nil => exact absurd ht h2
    | cons a as =>
      simp only [List.head?_cons]
      intro hEq
      injection hEq with ha
      exact h1 (by rw [ht, ha]; exact List.mem_cons_self _ _)
  rw [if_neg hh, splitOnChar_not_mem '#' (pyStrip l) h1]
  simp

/-- Claim C4: for every input line that, after trimming, is nonempty and
contains no hash character, processing that line leaves the mapping
unchanged. -/
theorem spec_C4 (m : PMap) (l : List Char)
    (h1 : '#' ∉ pyStrip l) (h2 : pyStrip l ≠ []) : processLine m l = m := by
  unfold processLine
  rw [parseLine_eq_none_of_no_hash l h1 h2]

/-- Witness for C4 at the spec's Scenario 2 line. -/
theorem spec_C4_witness :
    processLine [(['y', 'i'], [['一']])] (("U+4E00: yī").data) = [(['y', 'i'], [['一']])] :=
  spec_C4 [(['y', 'i'], [['一']])] (("U+4E00: yī").data) (by decide) (by decide)

/-! ### Claim C5: normalization is idempotent -/

theorem mem_normalizeToken_alpha (c : Char) (s : List Char)
    (h : c ∈ normalizeToken s) : isLowerAlpha c = true :=
  (List.mem_filter.mp h).2

theorem normalizeToken_cons (c : Char) (cs : List Char) :
    normalizeToken (c :: cs) =
      ((((nfdChar c).filter (fun x => !isMn x)).map pyLower).filter isLowerAlpha) ++
        normalizeToken cs := by
  unfold normalizeToken strip_accents
  show ((List.filter _ (nfdChar c ++ nfdStr cs)).map pyLower).filter _ = _
  rw [List.filter_append, List.map_append, List.filter_append]

theorem normalizeToken_id_of_alpha (t : List Char)
    (h : ∀ c ∈ t, isLowerAlpha c = true) : normalizeToken t = t := by
  induction t with
  | nil => rfl
  | cons c cs ih =>
    have hc := h c (List.mem_cons_self c cs)
    have hcs : ∀ x ∈ cs, isLowerAlpha x = true :=
      fun x hx => h x (List.mem_cons_of_mem c hx)
    have hn : 0x61 ≤ c.toNat ∧ c.toNat ≤ 0x7A := by
      simpa [isLowerAlpha, Bool.and_eq_true, decide_eq_true_eq] using hc
    have h2 : nfdChar c = [c] := by
      unfold nfdChar
      rw [if_pos (by omega)]
    have h3 : isMn c = false := by
      simp only [isMn, Bool.and_eq_true, decide_eq_true_eq, Bool.and_eq_false_iff]
      left
      simpa using by omega
    have h4 : pyLower c = c := by
      unfold pyLower
      rw [if_neg (by omega)]
    rw [normalizeToken_cons, h2, ih hcs]
    simp [h3, h4, hc]

/-- Claim C5: the romanization normalization (NFD decomposition with
combining marks dropped, lower-casing, removal of characters outside
a-z) is idempotent on every string. -/
theorem spec_C5 (s : List Char) :
    normalizeToken (normalizeToken s) = normalizeToken s :=
  normalizeToken_id_of_alpha (normalizeToken s)
    (fun c hc => mem_normalizeToken_alpha c s hc)

/-! ### Claim C7: the token lüe normalizes to lue -/

/-- Claim C7: the token lüe strips to lue (the umlaut decomposes to a
combining mark, which is dropped) and normalizes to the canonical key
lue. -/
theorem spec_C7 :
    strip_accents ['l', 'ü', 'e'] = ['l', 'u', 'e'] ∧
    normalizeToken ['l', 'ü', 'e'] = ['l', 'u', 'e'] := by
  constructor <;> rfl

/-! ### Claim C6: how the annotation is extracted from the line -/

/-- A line with two hashes, after its code-point and romanization field. -/
def c6Line : List Char := ("U+4E00: yi # 一 # x").data

/-- Counterexample to claim C6: on a line containing two hash characters
the parser's annotation is the trimmed text between the first and the
second hash, not the trimmed text after the first hash. -/
theorem spec_C6_cex :
    (parseLine c6Line).map (fun r => r.2) = some ['一'] ∧
    pyStrip (afterFirstHash (pyStrip c6Line)) = ['一', ' ', '#', ' ', 'x'] ∧
    (parseLine c6Line).map (fun r => r.2) ≠
      some (pyStrip (afterFirstHash (pyStrip c6Line))) := by
  refine ⟨by decide, by decide, ?_⟩
  decide

/-- Claim C6 as amended: the parser splits the line on every hash
character; for a (trimmed, non-comment) line with two or more hashes the
character annotation is the trimmed text strictly between the first and
the second hash, and the content is the trimmed text before the first
hash. -/
theorem spec_C6_amended (pre mid post : List Char)
    (h1 : '#' ∉ pre) (h2 : '#' ∉ mid) (h3 : pre ≠ [])
    (h4 : pyStrip (pre ++ '#' :: (mid ++ '#' :: post)) =
          pre ++ '#' :: (mid ++ '#' :: post)) :
    parseLine (pre ++ '#' :: (mid ++ '#' :: post)) = some (pyStrip pre, pyStrip mid) := by
  have hsplit : splitOnChar '#' (pre ++ '#' :: (mid ++ '#' :: post)) =
      pre :: mid :: splitOnChar '#' post := by
    rw [splitOnChar_append '#' pre _ h1, splitOnChar_append '#' mid _ h2]
  have hne : pre ++ '#' :: (mid ++ '#' :: post) ≠ [] := by
    cases pre <;> simp
  have hhead : ¬ (pre ++ '#' :: (mid ++ '#' :: post)).head? = some '#' := by
    cases pre with
    | nil => exact absurd rfl h3
    | cons a as =>
      simp only [List.cons_append, List.head?_cons]
      intro hEq
      injection hEq with ha
      exact h1 (ha ▸ List.mem_cons_self a as)
  unfold parseLine
  rw [h4, if_neg hne, if_neg hhead, hsplit]
  rw [if_neg (by simp)]
  rfl

/-- Witness for C6's amended statement at the counterexample line. -/
theorem spec_C6_amended_witness :
    parseLine (("U+4E00: yi ").data ++ '#' :: ((" 一 ").data ++ '#' :: (" x").data)) =
      some (pyStrip (("U+4E00: yi ").data), pyStrip ((" 一 ").data)) :=
  spec_C6_amended (("U+4E00: yi ").data) ((" 一 ").data) ((" x").data)
    (by decide) (by decide) (by decide) (by decide)

/-! ### Claim C8: a fetch failure leaves no output artifact -/

/-- Claim C8: when the fetch-or-decode step fails, the error propagates
(the run ends with that error, having printed only the download notice and
written nothing), and any file write that does occur in any run carries
the serialization of the fully built mapping of a successful fetch. -/
theorem spec_C8 (e : List Char) :
    runEvents (Except.error e) = ([Event.print downloadMsg], some e) ∧
    (∀ f c, Event.fileWrite c ∈ (runEvents f).1 →
      ∃ d, f = Except.ok d ∧ c = fileContent (buildMap d)) := by
  refine ⟨rfl, ?_⟩
  intro f c hc
  cases f with
  | error e' => simp [runEvents] at hc
  | ok d =>
    refine ⟨d, rfl, ?_⟩
    simp only [runEvents, List.mem_cons, List.not_mem_nil, or_false] at hc
    rcases hc with h | h | h | h <;> injection h

/-- Witness for C8 at a concrete error and a concrete successful run. -/
theorem spec_C8_witness :
    runEvents (Except.error ['x']) = ([Event.print downloadMsg], some ['x']) ∧
    ∃ d, (Except.ok [] : Except (List Char) (List Char)) = Except.ok d ∧
      fileContent (buildMap []) = fileContent (buildMap d) :=
  ⟨(spec_C8 ['x']).1,
   (spec_C8 ['x']).2 (Except.ok [] : Except (List Char) (List Char))
     (fileContent (buildMap [])) (by decide)⟩

/-! ### Claim C9: progress lines printed on success -/

/-- Counterexample to claim C9: a successful run prints three lines to
standard output, not two (the download notice precedes the count and the
completion notice). -/
theorem spec_C9_cex :
    ¬ (printedLines (runEvents (Except.ok ([] : List Char))).1).length = 2 := by
  decide

/-- Claim C9 as amended: every successful run prints exactly three
progress lines — the download notice, the count of unique keys, and the
completion notice. -/
theorem spec_C9_amended (d : List Char) :
    printedLines (runEvents (Except.ok d)).1 =
      [downloadMsg, processedMsg (buildMap d).length, doneMsg] ∧
    (printedLines (runEvents (Except.ok d)).1).length = 3 :=
  ⟨rfl, rfl⟩

/-! ### String comparison and sorting -/

theorem strLt_false_antisymm (x : List Char) : ∀ y, strLt x y = false → strLt y x = false → x = y := by
  induction x with
  | nil =>
    intro y h1 h2
    cases y with
    | nil => rfl
    | cons b t => simp [strLt] at h1
  | cons a s ih =>
    intro y h1 h2
    cases y with
    | nil => simp [strLt] at h2
    | cons b t =>
      by_cases hab : a < b
      · simp [strLt, hab] at h1
      · by_cases hba : b < a
        · simp [strLt, hba] at h2
        · have hEq : a = b := le_antisymm (not_lt.mp hba) (not_lt.mp hab)
          simp only [strLt, if_neg hab, if_neg hba] at h1
          simp only [strLt, if_neg hba, if_neg hab] at h2
          rw [hEq, ih t h1 h2]

theorem strLt_asymm (x : List Char) : ∀ y, strLt x y = true → strLt y x = false := by
  induction x with
  | nil =>
    intro y h
    cases y with
    | nil => rfl
    | cons b t => rfl
  | cons a s ih =>
    intro y h
    cases y with
    | nil => simp [strLt] at h
    | cons b t =>
      by_cases hab : a < b
      · have hba : ¬ b < a := lt_asymm hab
        simp [strLt, hba, hab]
      · by_cases hba : b < a
        · simp [strLt, hab, hba] at h
        · simp only [strLt, if_neg hab, if_neg hba] at h
          simp only [strLt, if_neg hba, if_neg hab]
          exact ih t h

theorem strLt_false_trans (x : List Char) :
    ∀ y z, strLt y x = false → strLt z y = false → strLt z x = false := by
  induction x with
  | nil =>
    intro y z h1 h2
    cases z with
    | nil => rfl
    | cons c u => rfl
  | cons a s ih =>
    intro y z h1 h2
    cases y with
    | nil => simp [strLt] at h1
    | cons b t =>
      cases z with
      | nil => simp [strLt] at h2
      | cons c u =>
        have hba : ¬ b < a := by
          intro hlt
          simp [strLt, hlt] at h1
        have hcb : ¬ c < b := by
          intro hlt
          simp [strLt, hlt] at h2
        have hab : a ≤ b := not_lt.mp hba
        have hbc : b ≤ c := not_lt.mp hcb
        have hca : ¬ c < a := not_lt.mpr (le_trans hab hbc)
        by_cases hac : a < c
        · simp [strLt, hca, hac]
        · have hac' : a = c := le_antisymm (le_trans hab hbc) (not_lt.mp hac)
          have hEqab : a = b := le_antisymm hab (hac' ▸ hbc)
          simp only [strLt, if_neg hba, if_neg (hEqab ▸ hba : ¬ a < b)] at h1
          simp only [strLt, if_neg hcb, if_neg (by rw [hEqab] at hac'; exact hac' ▸ hcb : ¬ b < c)] at h2
          simp only [strLt, if_neg hca, if_neg hac]
          exact ih t u h1 h2

theorem mem_insertStr (x a : List Char) (l : List (List Char)) :
    a ∈ insertStr x l ↔ a = x ∨ a ∈ l := by
  induction l with
  | nil => simp [insertStr]
  | cons y ys ih =>
    simp only [insertStr]
    split
    · simp [List.mem_cons]
    · simp only [List.mem_cons, ih]
      tauto

theorem insertStr_perm (x : List Char) (l : List (List Char)) :
    (insertStr x l).Perm (x :: l) := by
  induction l with
  | nil => exact List.Perm.refl _
  | cons y ys ih =>
    simp only [insertStr]
    split
    · exact List.Perm.refl _
    · exact (ih.cons y).trans (List.Perm.swap x y ys)

theorem sortStrs_perm (l : List (List Char)) : (sortStrs l).Perm l := by
  induction l with
  | nil => exact List.Perm.refl _
  | cons x xs ih => exact (insertStr_perm x (sortStrs xs)).trans (ih.cons x)

/-- Sorted ascending for Python string order (no later element smaller). -/
def StrSorted (l : List (List Char)) : Prop :=
  l.Pairwise (fun a b => strLt b a = false)

theorem insertStr_sorted (x : List Char) (l : List (List Char)) (h : StrSorted l) :
    StrSorted (insertStr x l) := by
  induction l with
  | nil => exact List.pairwise_singleton _ x
  | cons y ys ih =>
    rcases List.pairwise_cons.mp h with ⟨hy, hys⟩
    simp only [insertStr]
    split
    · rename_i hxy
      refine List.pairwise_cons.mpr ⟨?_, h⟩
      intro b hb
      rcases List.mem_cons.mp hb with h1 | h1
      · exact h1 ▸ strLt_asymm x y hxy
      · exact strLt_false_trans x y b (strLt_asymm x y hxy) (hy b h1)
    · rename_i hxy
      refine List.pairwise_cons.mpr ⟨?_, ih hys⟩
      intro b hb
      rcases (mem_insertStr x b ys).mp hb with h1 | h1
      · exact h1 ▸ (Bool.not_eq_true _ ▸ hxy)
      · exact hy b h1

theorem sortStrs_sorted (l : List (List Char)) : StrSorted (sortStrs l) := by
  induction l with
  | nil => exact List.Pairwise.nil
  | cons x xs ih => exact insertStr_sorted x (sortStrs xs) ih

theorem sortStrs_nodup (l : List (List Char)) (h : l.Nodup) : (sortStrs l).Nodup :=
  (sortStrs_perm l).symm.nodup h

theorem sortStrs_strict (l : List (List Char)) (h : l.Nodup) :
    (sortStrs l).Pairwise (fun a b => strLt a b = true) := by
  have h1 := sortStrs_sorted l
  have h2 := sortStrs_nodup l h
  refine ((h1.and h2).imp ?_)
  rintro a b ⟨hab, hne⟩
  cases hba : strLt a b with
  | true => rfl
  | false => exact absurd (strLt_false_antisymm a b hba hab) hne

theorem mem_sortStrs (l : List (List Char)) (a : List Char) :
    a ∈ sortStrs l ↔ a ∈ l :=
  (sortStrs_perm l).mem_iff

/-! ### The mapping: membership and invariants -/

theorem lookupMap_mem (m : PMap) (k : List Char) (h : k ∈ mapKeys m) :
    (k, lookupMap m k) ∈ m := by
  induction m with
  | nil => cases h
  | cons e rest ih =>
    obtain ⟨k0, vs⟩ := e
    by_cases hk : k0 = k
    · subst hk
      simp only [lookupMap, if_pos rfl]
      exact List.mem_cons_self _ _
    · have h2 : k ∈ mapKeys rest := by
        rcases List.mem_cons.mp h with h1 | h1
        · exact absurd h1.symm hk
        · exact h1
      simp only [lookupMap, if_neg hk]
      exact List.mem_cons_of_mem _ (ih h2)

theorem mem_addToMap_val (m : PMap) (k v k' : List Char) (cs' : List (List Char))
    (ch : List Char) (h : (k', cs') ∈ addToMap m k v) (hch : ch ∈ cs') :
    (∃ cs, (k', cs) ∈ m ∧ ch ∈ cs) ∨ (k' = k ∧ ch = v) := by
  induction m with
  | nil =>
    simp only [addToMap, List.mem_singleton, Prod.mk.injEq] at h
    right
    refine ⟨h.1, ?_⟩
    rw [h.2] at hch
    simpa using hch
  | cons e rest ih =>
    obtain ⟨k0, vs⟩ := e
    simp only [addToMap] at h
    by_cases hk : k0 = k
    · rw [if_pos hk] at h
      rcases List.mem_cons.mp h with h1 | h1
      · have hk' : k' = k0 := congrArg Prod.fst h1
        have hcs : cs' = if v ∈ vs then vs else vs ++ [v] := congrArg Prod.snd h1
        by_cases hv : v ∈ vs
        · rw [if_pos hv] at hcs
          refine Or.inl ⟨vs, ?_, hcs ▸ hch⟩
          rw [hk']
          exact List.mem_cons_self _ _
        · rw [if_neg hv] at hcs
          rw [hcs] at hch
          rcases List.mem_append.mp hch with h2 | h2
          · refine Or.inl ⟨vs, ?_, h2⟩
            rw [hk']
            exact List.mem_cons_self _ _
          · exact Or.inr ⟨hk'.trans hk, by simpa using h2⟩
      · exact Or.inl ⟨cs', List.mem_cons_of_mem _ h1, hch⟩
    · rw [if_neg hk] at h
      rcases List.mem_cons.mp h with h1 | h1
      · refine Or.inl ⟨cs', ?_, hch⟩
        rw [h1]
        exact List.mem_cons_self _ _
      · rcases ih h1 with h2 | h2
        · exact Or.inl ⟨h2.choose, List.mem_cons_of_mem _ h2.choose_spec.1, h2.choose_spec.2⟩
        · exact Or.inr h2

theorem mem_foldl_addToMap (ks : List (List Char)) (v : List Char) :
    ∀ m k cs ch, (k, cs) ∈ ks.foldl (fun a x => addToMap a x v) m → ch ∈ cs →
      (∃ cs0, (k, cs0) ∈ m ∧ ch ∈ cs0) ∨ (k ∈ ks ∧ ch = v) := by
  induction ks with
  | nil =>
    intro m k cs ch h hch
    exact Or.inl ⟨cs, h, hch⟩
  | cons x ks' ih =>
    intro m k cs ch h hch
    rcases ih (addToMap m x v) k cs ch h hch with h1 | h1
    · obtain ⟨cs0, hmem, hch0⟩ := h1
      rcases mem_addToMap_val m x v k cs0 ch hmem hch0 with h2 | h2
      · exact Or.inl h2
      · exact Or.inr ⟨h2.1 ▸ List.mem_cons_self _ _, h2.2⟩
    · exact Or.inr ⟨List.mem_cons_of_mem x h1.1, h1.2⟩

theorem tokens_foldl_eq (ts : List (List Char)) (ch : List Char) : ∀ m : PMap,
    ts.foldl (fun acc p =>
      if pyStrip p = [] then acc
      else if normalizeToken (pyStrip p) = [] then acc
      else addToMap acc (normalizeToken (pyStrip p)) ch) m
    = ((ts.map (fun p => normalizeToken (pyStrip p))).filter
        (fun k => decide (k ≠ []))).foldl (fun a x => addToMap a x ch) m := by
  induction ts with
  | nil => intro m; rfl
  | cons p ts' ih =>
    intro m
    simp only [List.foldl_cons, List.map_cons, List.filter_cons]
    by_cases h1 : pyStrip p = []
    · have h2 : normalizeToken (pyStrip p) = [] := by rw [h1]; rfl
      rw [if_pos h1, h2, if_neg (by decide)]
      exact ih m
    · by_cases h2 : normalizeToken (pyStrip p) = []
      · rw [if_neg h1, if_pos h2, h2, if_neg (by decide)]
        exact ih m
      · rw [if_neg h1, if_neg h2, if_pos (decide_eq_true h2), List.foldl_cons]
        exact ih (addToMap m (normalizeToken (pyStrip p)) ch)

theorem processLine_eq (m : PMap) (l : List Char) :
    processLine m l =
      match lineCharKeys l with
      | none => m
      | some (ch, ks) => ks.foldl (fun a x => addToMap a x ch) m := by
  cases hp : parseLine l with
  | none => simp only [processLine, lineCharKeys, hp]
  | some pr =>
    obtain ⟨content, character⟩ := pr
    simp only [processLine, lineCharKeys, hp]
    by_cases hg : gb2312Encodable character = true
    · rw [if_pos hg, if_pos hg]
      by_cases hc : ':' ∈ content
      · rw [if_pos hc, if_pos hc]
        show (lineTokens content).foldl _ m =
          (lineKeys content).foldl (fun a x => addToMap a x character) m
        exact tokens_foldl_eq (lineTokens content) character m
      · rw [if_neg hc, if_neg hc]
    · rw [if_neg hg, if_neg hg]

theorem lineCharKeys_gb2312 (l ch : List Char) (ks : List (List Char))
    (h : lineCharKeys l = some (ch, ks)) : gb2312Encodable ch = true := by
  unfold lineCharKeys at h
  split at h
  · cases h
  · rename_i content character hp
    split at h
    · rename_i hg
      split at h
      · injection h with h'
        have hce : character = ch := congrArg Prod.fst h'
        exact hce ▸ hg
      · cases h
    · cases h

theorem mem_processLine (m : PMap) (l k : List Char) (cs : List (List Char))
    (ch : List Char) (h : (k, cs) ∈ processLine m l) (hch : ch ∈ cs) :
    (∃ cs0, (k, cs0) ∈ m ∧ ch ∈ cs0) ∨
      (∃ ks, lineCharKeys l = some (ch, ks) ∧ k ∈ ks) := by
  rw [processLine_eq] at h
  cases hl : lineCharKeys l with
  | none =>
    rw [hl] at h
    exact Or.inl ⟨cs, h, hch⟩
  | some pr =>
    obtain ⟨ch0, ks⟩ := pr
    rw [hl] at h
    rcases mem_foldl_addToMap ks ch0 m k cs ch h hch with h1 | h1
    · exact Or.inl h1
    · refine Or.inr ⟨ks, ?_, h1.1⟩
      rw [h1.2]

theorem mem_foldl_processLine (ls : List (List Char)) :
    ∀ m k cs ch, (k, cs) ∈ ls.foldl processLine m → ch ∈ cs →
      (∃ cs0, (k, cs0) ∈ m ∧ ch ∈ cs0) ∨
        (∃ l, l ∈ ls ∧ ∃ ks, lineCharKeys l = some (ch, ks) ∧ k ∈ ks) := by
  induction ls with
  | nil =>
    intro m k cs ch h hch
    exact Or.inl ⟨cs, h, hch⟩
  | cons l ls' ih =>
    intro m k cs ch h hch
    rcases ih (processLine m l) k cs ch h hch with h1 | h1
    · obtain ⟨cs0, hmem, hch0⟩ := h1
      rcases mem_processLine m l k cs0 ch hmem hch0 with h2 | h2
      · exact Or.inl h2
      · exact Or.inr ⟨l, List.mem_cons_self _ _, h2⟩
    · obtain ⟨l', hl', hrest⟩ := h1
      exact Or.inr ⟨l', List.mem_cons_of_mem l hl', hrest⟩

/-! ### Claim C1: the filter invariant -/

/-- Claim C1: every character string stored in any set of the final
mapping passed the GB2312 encoding filter, and is the annotation of at
least one input line one of whose normalized nonempty romanization
variants is the set's key.  In particular no character rejected by the
encoder ever appears in the mapping (hence in the written output, which
serializes exactly the mapping's keys and sets). -/
theorem spec_C1 (data k ch : List Char) (cs : List (List Char))
    (hm : (k, cs) ∈ buildMap data) (hch : ch ∈ cs) :
    gb2312Encodable ch = true ∧
    ∃ l, l ∈ splitOnChar '\n' data ∧
      ∃ ks, lineCharKeys l = some (ch, ks) ∧ k ∈ ks := by
  unfold buildMap at hm
  rcases mem_foldl_processLine (splitOnChar '\n' data) [] k cs ch hm hch with h1 | h1
  · obtain ⟨cs0, hmem, _⟩ := h1
    cases hmem
  · obtain ⟨l, hl, ks, hks, hk⟩ := h1
    exact ⟨lineCharKeys_gb2312 l ch ks hks, l, hl, ks, hks, hk⟩

/-- Witness for C1 on a one-line input mapping yi to the set containing
the character 一. -/
theorem spec_C1_witness :
    gb2312Encodable ['一'] = true ∧
    ∃ l, l ∈ splitOnChar '\n' (("U+4E00: yī # 一").data) ∧
      ∃ ks, lineCharKeys l = some (['一'], ks) ∧ ['y', 'i'] ∈ ks :=
  spec_C1 (("U+4E00: yī # 一").data) ['y', 'i'] ['一'] [['一']]
    (by decide) (by decide)

/-! ### Keys and values of the built mapping are duplicate-free -/

theorem mapKeys_addToMap (m : PMap) (k v : List Char) :
    mapKeys (addToMap m k v) =
      if k ∈ mapKeys m then mapKeys m else mapKeys m ++ [k] := by
  induction m with
  | nil => simp [addToMap, mapKeys]
  | cons e rest ih =>
    obtain ⟨k0, vs⟩ := e
    by_cases hk : k0 = k
    · subst hk
      simp [addToMap, mapKeys]
    · have hne : ¬ k = k0 := fun h => hk h.symm
      have hstep : addToMap ((k0, vs) :: rest) k v = (k0, vs) :: addToMap rest k v := by
        simp [addToMap, hk]
      rw [hstep,
        show mapKeys ((k0, vs) :: addToMap rest k v) =
          k0 :: mapKeys (addToMap rest k v) from rfl,
        ih,
        show mapKeys ((k0, vs) :: rest) = k0 :: mapKeys rest from rfl]
      by_cases hmem : k ∈ mapKeys rest
      · rw [if_pos hmem, if_pos (List.mem_cons_of_mem _ hmem)]
      · rw [if_neg hmem, if_neg (by
          intro hc
          rcases List.mem_cons.mp hc with h1 | h1
          · exact hne h1
          · exact hmem h1)]
        rfl

theorem nodup_keys_addToMap (m : PMap) (k v : List Char)
    (h : (mapKeys m).Nodup) : (mapKeys (addToMap m k v)).Nodup := by
  rw [mapKeys_addToMap]
  split
  · exact h
  · rename_i hnm
    simp [List.nodup_append, h, hnm]

theorem nodup_keys_foldl_addToMap (ks : List (List Char)) (v : List Char) :
    ∀ m : PMap, (mapKeys m).Nodup →
      (mapKeys (ks.foldl (fun a x => addToMap a x v) m)).Nodup := by
  induction ks with
  | nil => intro m h; exact h
  | cons x ks' ih =>
    intro m h
    exact ih (addToMap m x v) (nodup_keys_addToMap m x v h)

theorem nodup_keys_processLine (m : PMap) (l : List Char)
    (h : (mapKeys m).Nodup) : (mapKeys (processLine m l)).Nodup := by
  rw [processLine_eq]
  cases hl : lineCharKeys l with
  | none => exact h
  | some pr =>
    obtain ⟨ch, ks⟩ := pr
    exact nodup_keys_foldl_addToMap ks ch m h

theorem buildMap_keys_nodup (data : List Char) :
    (mapKeys (buildMap data)).Nodup := by
  unfold buildMap
  have haux : ∀ (ls : List (List Char)) (m : PMap), (mapKeys m).Nodup →
      (mapKeys (List.foldl processLine m ls)).Nodup := by
    intro ls
    induction ls with
    | nil => intro m h; exact h
    | cons l ls' ih => intro m h; exact ih (processLine m l) (nodup_keys_processLine m l h)
  exact haux (splitOnChar '\n' data) [] List.nodup_nil

theorem vals_nodup_addToMap (m : PMap) (k v : List Char)
    (h : ∀ p ∈ m, (Prod.snd p).Nodup) :
    ∀ p ∈ addToMap m k v, (Prod.snd p).Nodup := by
  induction m with
  | nil =>
    intro p hp
    simp only [addToMap, List.mem_singleton] at hp
    subst hp
    exact List.nodup_singleton v
  | cons e rest ih =>
    obtain ⟨k0, vs⟩ := e
    intro p hp
    simp only [addToMap] at hp
    by_cases hk : k0 = k
    · rw [if_pos hk] at hp
      rcases List.mem_cons.mp hp with h1 | h1
      · subst h1
        by_cases hv : v ∈ vs
        · simpa [hv] using h (k0, vs) (List.mem_cons_self _ _)
        · have hnd : vs.Nodup := h (k0, vs) (List.mem_cons_self _ _)
          simp only [if_neg hv]
          simpa [List.nodup_append, hv] using hnd
      · exact h p (List.mem_cons_of_mem _ h1)
    · rw [if_neg hk] at hp
      rcases List.mem_cons.mp hp with h1 | h1
      · exact h1 ▸ h (k0, vs) (List.mem_cons_self _ _)
      · exact ih (fun q hq => h q (List.mem_cons_of_mem _ hq)) p h1

theorem vals_nodup_foldl_addToMap (ks : List (List Char)) (v : List Char) :
    ∀ m : PMap, (∀ p ∈ m, (Prod.snd p).Nodup) →
      ∀ p ∈ ks.foldl (fun a x => addToMap a x v) m, (Prod.snd p).Nodup := by
  induction ks with
  | nil => intro m h; exact h
  | cons x ks' ih =>
    intro m h
    exact ih (addToMap m x v) (vals_nodup_addToMap m x v h)

theorem vals_nodup_processLine (m : PMap) (l : List Char)
    (h : ∀ p ∈ m, (Prod.snd p).Nodup) :
    ∀ p ∈ processLine m l, (Prod.snd p).Nodup := by
  rw [processLine_eq]
  cases hl : lineCharKeys l with
  | none => exact h
  | some pr =>
    obtain ⟨ch, ks⟩ := pr
    exact vals_nodup_foldl_addToMap ks ch m h

theorem buildMap_vals_nodup (data : List Char) :
    ∀ p ∈ buildMap data, (Prod.snd p).Nodup := by
  unfold buildMap
  have haux : ∀ (ls : List (List Char)) (m : PMap), (∀ p ∈ m, (Prod.snd p).Nodup) →
      ∀ p ∈ List.foldl processLine m ls, (Prod.snd p).Nodup := by
    intro ls
    induction ls with
    | nil => intro m h; exact h
    | cons l ls' ih => intro m h; exact ih (processLine m l) (vals_nodup_processLine m l h)
  exact haux (splitOnChar '\n' data) [] (by intro p hp; cases hp)

/-! ### Claim C2: the structure of the written output -/

/-- Claim C2: the output has exactly one line per canonical key (the
sorted key list is a permutation of the duplicate-free key list of the
mapping); the keys appear in strictly increasing lexicographic order;
each line is its key, a single space, then the line's characters joined
by single spaces; and within each line the characters are strictly
increasing by code point. -/
theorem spec_C2 (data : List Char) :
    (mapKeys (buildMap data)).Nodup ∧
    outputLines (buildMap data) =
      (sortStrs (mapKeys (buildMap data))).map
        (fun p => p ++ ' ' :: joinWith ' ' (sortStrs (lookupMap (buildMap data) p))) ∧
    (sortStrs (mapKeys (buildMap data))).Perm (mapKeys (buildMap data)) ∧
    (sortStrs (mapKeys (buildMap data))).Pairwise (fun a b => strLt a b = true) ∧
    ∀ p ∈ mapKeys (buildMap data),
      (sortStrs (lookupMap (buildMap data) p)).Pairwise (fun a b => strLt a b = true) := by
  refine ⟨buildMap_keys_nodup data, rfl, sortStrs_perm _,
    sortStrs_strict _ (buildMap_keys_nodup data), ?_⟩
  intro p hp
  exact sortStrs_strict _
    (buildMap_vals_nodup data (p, lookupMap (buildMap data) p) (lookupMap_mem _ p hp))

/-- Witness for C2 at a concrete two-key input. -/
theorem spec_C2_witness :
    (sortStrs (mapKeys (buildMap (("U+4E00: yī # 一").data)))).Pairwise
      (fun a b => strLt a b = true) ∧
    (sortStrs (lookupMap (buildMap (("U+4E00: yī # 一").data)) ['y', 'i'])).Pairwise
      (fun a b => strLt a b = true) :=
  ⟨(spec_C2 (("U+4E00: yī # 一").data)).2.2.2.1,
   (spec_C2 (("U+4E00: yī # 一").data)).2.2.2.2 ['y', 'i'] (by decide)⟩

/-! ### Claim C10: empty annotations -/

theorem map_congr_mem {α β : Type} (l : List α) (f g : α → β)
    (h : ∀ a ∈ l, f a = g a) : l.map f = l.map g := by
  induction l with
  | nil => rfl
  | cons x xs ih =>
    simp only [List.map_cons]
    rw [h x (List.mem_cons_self x xs), ih (fun a ha => h a (List.mem_cons_of_mem x ha))]

theorem vals_const_addToMap (m : PMap) (k v : List Char)
    (h : ∀ p ∈ m, Prod.snd p = [v]) :
    ∀ p ∈ addToMap m k v, Prod.snd p = [v] := by
  induction m with
  | nil =>
    intro p hp
    simp only [addToMap, List.mem_singleton] at hp
    rw [hp]
  | cons e rest ih =>
    obtain ⟨k0, vs⟩ := e
    have hvs : vs = [v] := h (k0, vs) (List.mem_cons_self _ _)
    intro p hp
    simp only [addToMap] at hp
    by_cases hk : k0 = k
    · rw [if_pos hk, hvs, if_pos (List.mem_singleton.mpr rfl)] at hp
      rcases List.mem_cons.mp hp with h1 | h1
      · rw [h1]
      · exact h p (List.mem_cons_of_mem _ h1)
    · rw [if_neg hk] at hp
      rcases List.mem_cons.mp hp with h1 | h1
      · rw [h1]
        exact hvs
      · exact ih (fun q hq => h q (List.mem_cons_of_mem _ hq)) p h1

theorem vals_const_foldl_addToMap (ks : List (List Char)) (v : List Char) :
    ∀ m : PMap, (∀ p ∈ m, Prod.snd p = [v]) →
      ∀ p ∈ List.foldl (fun a x => addToMap a x v) m ks, Prod.snd p = [v] := by
  induction ks with
  | nil => intro m h; exact h
  | cons x ks' ih =>
    intro m h
    exact ih (addToMap m x v) (vals_const_addToMap m x v h)

/-- Claim C10: an input line whose text after the first hash is empty or
whitespace-only parses to the empty-string annotation; the empty string
passes the GB2312 filter; on the single-line input every key's stored set
is exactly the singleton containing the empty string; and every written
line is its key followed by a single trailing space. -/
theorem spec_C10 (l : List Char)
    (h0 : pyStrip l ≠ [])
    (h1 : ¬ (pyStrip l).head? = some '#')
    (h2 : '#' ∈ pyStrip l)
    (h3 : ∀ c ∈ afterFirstHash (pyStrip l), isPySpace c = true)
    (h4 : '\n' ∉ l) :
    (∃ content, parseLine l = some (content, [])) ∧
    gb2312Encodable [] = true ∧
    (∀ k ∈ mapKeys (buildMap l), lookupMap (buildMap l) k = [[]]) ∧
    outputLines (buildMap l) =
      (sortStrs (mapKeys (buildMap l))).map (fun p => p ++ [' ']) := by
  obtain ⟨a, b, hab, hna⟩ := exists_first_occurrence '#' (pyStrip l) h2
  have hb_ws : ∀ c ∈ b, isPySpace c = true := by
    intro c hc
    apply h3
    rw [hab, afterFirstHash_append a b hna]
    exact hc
  have hsplit : splitOnChar '#' (pyStrip l) = a :: splitOnChar '#' b := by
    rw [hab]
    exact splitOnChar_append '#' a b hna
  have hp1 : pyStrip ((splitOnChar '#' (pyStrip l)).getD 1 []) = [] := by
    rw [hsplit]
    cases hsb : splitOnChar '#' b with
    | nil => exact absurd hsb (splitOnChar_ne_nil '#' b)
    | cons p1 rest =>
      show pyStrip p1 = []
      apply pyStrip_eq_nil
      intro c hc
      exact hb_ws c
        (mem_of_mem_splitOnChar '#' b p1 c (hsb ▸ List.mem_cons_self p1 rest) hc)
  have hlen : ¬ (splitOnChar '#' (pyStrip l)).length < 2 := by
    rw [hsplit]
    cases hsb : splitOnChar '#' b with
    | nil => exact absurd hsb (splitOnChar_ne_nil '#' b)
    | cons p1 rest => simp
  have hparse : parseLine l =
      some (pyStrip ((splitOnChar '#' (pyStrip l)).getD 0 []), []) := by
    unfold parseLine
    rw [if_neg h0, if_neg h1, if_neg hlen, hp1]
  have hbm : buildMap l = processLine [] l := by
    unfold buildMap
    rw [splitOnChar_not_mem '\n' l h4]
    rfl
  have hlck : lineCharKeys l =
      if ':' ∈ pyStrip ((splitOnChar '#' (pyStrip l)).getD 0 [])
      then some ([], lineKeys (pyStrip ((splitOnChar '#' (pyStrip l)).getD 0 [])))
      else none := by
    unfold lineCharKeys
    rw [hparse]
    rfl
  have hvals : ∀ p ∈ buildMap l, Prod.snd p = [([] : List Char)] := by
    rw [hbm, processLine_eq]
    cases hck : lineCharKeys l with
    | none => intro p hp; cases hp
    | some pr =>
      obtain ⟨ch, ks⟩ := pr
      have hch : ch = [] := by
        rw [hlck] at hck
        by_cases hc : ':' ∈ pyStrip ((splitOnChar '#' (pyStrip l)).getD 0 [])
        · rw [if_pos hc] at hck
          injection hck with h'
          exact (congrArg Prod.fst h').symm
        · rw [if_neg hc] at hck
          cases hck
      rw [hch]
      exact vals_const_foldl_addToMap ks [] [] (by intro p hp; cases hp)
  have hlook : ∀ k ∈ mapKeys (buildMap l), lookupMap (buildMap l) k = [[]] := by
    intro k hk
    exact hvals (k, lookupMap (buildMap l) k) (lookupMap_mem (buildMap l) k hk)
  refine ⟨⟨_, hparse⟩, rfl, hlook, ?_⟩
  unfold outputLines
  apply map_congr_mem
  intro p hp
  unfold serializeEntry
  rw [hlook p ((mem_sortStrs (mapKeys (buildMap l)) p).mp hp)]
  rfl

/-- Witness for C10 at a line whose annotation field is empty. -/
theorem spec_C10_witness :
    (∃ content, parseLine (("U+4E00: yi  #").data) = some (content, [])) ∧
    gb2312Encodable [] = true ∧
    (∀ k ∈ mapKeys (buildMap (("U+4E00: yi  #").data)),
      lookupMap (buildMap (("U+4E00: yi  #").data)) k = [[]]) ∧
    outputLines (buildMap (("U+4E00: yi  #").data)) =
      (sortStrs (mapKeys (buildMap (("U+4E00: yi  #").data)))).map (fun p => p ++ [' ']) :=
  spec_C10 (("U+4E00: yi  #").data) (by decide) (by decide) (by decide)
    (by decide) (by decide)

/-! ### Lemmas for the round-trip claim C3 -/

theorem alpha_not_space (c : Char) (h : isLowerAlpha c = true) : isPySpace c = false := by
  have hn : 0x61 ≤ c.toNat ∧ c.toNat ≤ 0x7A := by
    simpa [isLowerAlpha, Bool.and_eq_true, decide_eq_true_eq] using h
  simp only [isPySpace, Bool.or_eq_false_iff, beq_eq_false_iff_ne, ne_eq]
  omega

theorem not_space_ne_newline (c : Char) (h : isPySpace c = false) : ¬ c = '\n' := by
  intro he
  rw [he] at h
  exact absurd h (by decide)

theorem alpha_ne_newline (c : Char) (h : isLowerAlpha c = true) : ¬ c = '\n' :=
  not_space_ne_newline c (alpha_not_space c h)

theorem mem_joinWith (sep : Char) (ps : List (List Char)) (c : Char)
    (h : c ∈ joinWith sep ps) : c = sep ∨ ∃ p, p ∈ ps ∧ c ∈ p := by
  induction ps with
  | nil => cases h
  | cons x xs ih =>
    cases xs with
    | nil => exact Or.inr ⟨x, List.mem_cons_self x [], h⟩
    | cons y ys =>
      rw [show joinWith sep (x :: y :: ys) = x ++ sep :: joinWith sep (y :: ys) from rfl] at h
      rcases List.mem_append.mp h with h1 | h1
      · exact Or.inr ⟨x, List.mem_cons_self _ _, h1⟩
      · rcases List.mem_cons.mp h1 with h2 | h2
        · exact Or.inl h2
        · rcases ih h2 with h3 | ⟨p, hp, hc⟩
          · exact Or.inl h3
          · exact Or.inr ⟨p, List.mem_cons_of_mem x hp, hc⟩

theorem splitWsAux_token (t : List Char) (ht : ∀ c ∈ t, isPySpace c = false) :
    ∀ rest acc : List Char, splitWsAux (t ++ rest) acc = splitWsAux rest (t.reverse ++ acc) := by
  induction t with
  | nil => intro rest acc; simp
  | cons c t' ih =>
    intro rest acc
    have hc : isPySpace c = false := ht c (List.mem_cons_self c t')
    have ht' : ∀ x ∈ t', isPySpace x = false := fun x hx => ht x (List.mem_cons_of_mem c hx)
    rw [List.cons_append,
      show splitWsAux (c :: (t' ++ rest)) acc =
        if isPySpace c then
          (if acc = [] then splitWsAux (t' ++ rest) []
           else acc.reverse :: splitWsAux (t' ++ rest) [])
        else splitWsAux (t' ++ rest) (c :: acc) from rfl,
      if_neg (by rw [hc]; exact Bool.false_ne_true), ih ht' rest (c :: acc)]
    simp

theorem splitWsAux_space (rest acc : List Char) :
    splitWsAux (' ' :: rest) acc =
      if acc = [] then splitWsAux rest [] else acc.reverse :: splitWsAux rest [] := by
  rw [show splitWsAux (' ' :: rest) acc =
    if isPySpace ' ' then
      (if acc = [] then splitWsAux rest [] else acc.reverse :: splitWsAux rest [])
    else splitWsAux rest (' ' :: acc) from rfl]
  rw [if_pos (by decide)]

theorem pySplitWs_join (ts : List (List Char))
    (h : ∀ t ∈ ts, t ≠ [] ∧ ∀ c ∈ t, isPySpace c = false) :
    pySplitWs (joinWith ' ' ts) = ts := by
  induction ts with
  | nil => rfl
  | cons x xs ih =>
    obtain ⟨hx0, hxc⟩ := h x (List.mem_cons_self x xs)
    have hxs : ∀ t ∈ xs, t ≠ [] ∧ ∀ c ∈ t, isPySpace c = false :=
      fun t ht => h t (List.mem_cons_of_mem x ht)
    cases xs with
    | nil =>
      show splitWsAux (joinWith ' ' [x]) [] = [x]
      rw [show joinWith ' ' [x] = x from rfl]
      have := splitWsAux_token x hxc [] []
      rw [List.append_nil] at this
      rw [this, List.append_nil,
        show splitWsAux [] x.reverse =
          if x.reverse = [] then [] else [x.reverse.reverse] from rfl,
        if_neg (by simpa using hx0)]
      simp
    | cons y ys =>
      show splitWsAux (joinWith ' ' (x :: y :: ys)) [] = x :: y :: ys
      rw [show joinWith ' ' (x :: y :: ys) = x ++ ' ' :: joinWith ' ' (y :: ys) from rfl,
        splitWsAux_token x hxc (' ' :: joinWith ' ' (y :: ys)) [],
        splitWsAux_space, if_neg (by simpa using hx0)]
      rw [show pySplitWs (joinWith ' ' (y :: ys)) =
        splitWsAux (joinWith ' ' (y :: ys)) [] from rfl] at ih
      rw [ih hxs]
      simp

theorem pySplitWs_line (p : List Char) (ts : List (List Char))
    (hp : p ≠ []) (hpc : ∀ c ∈ p, isPySpace c = false)
    (h : ∀ t ∈ ts, t ≠ [] ∧ ∀ c ∈ t, isPySpace c = false) :
    pySplitWs (p ++ ' ' :: joinWith ' ' ts) = p :: ts := by
  show splitWsAux (p ++ ' ' :: joinWith ' ' ts) [] = p :: ts
  rw [splitWsAux_token p hpc (' ' :: joinWith ' ' ts) [],
    splitWsAux_space, if_neg (by simpa using hp)]
  rw [show splitWsAux (joinWith ' ' ts) [] = pySplitWs (joinWith ' ' ts) from rfl,
    pySplitWs_join ts h]
  simp

theorem filterMap_map_eq_map {α β γ : Type} (l : List α) (g : α → β)
    (f : β → Option γ) (k : α → γ) (h : ∀ a ∈ l, f (g a) = some (k a)) :
    (l.map g).filterMap f = l.map k := by
  induction l with
  | nil => rfl
  | cons x xs ih =>
    simp only [List.map_cons, List.filterMap_cons, h x (List.mem_cons_self x xs)]
    rw [ih (fun a ha => h a (List.mem_cons_of_mem x ha))]

theorem mem_keys_addToMap (m : PMap) (k v k' : List Char)
    (h : k' ∈ mapKeys (addToMap m k v)) : k' ∈ mapKeys m ∨ k' = k := by
  rw [mapKeys_addToMap] at h
  split at h
  · exact Or.inl h
  · rcases List.mem_append.mp h with h1 | h1
    · exact Or.inl h1
    · exact Or.inr (List.mem_singleton.mp h1)

theorem mem_keys_foldl_addToMap (ks : List (List Char)) (v : List Char) :
    ∀ (m : PMap) (k' : List Char),
      k' ∈ mapKeys (List.foldl (fun a x => addToMap a x v) m ks) →
      k' ∈ mapKeys m ∨ k' ∈ ks := by
  induction ks with
  | nil => intro m k' h; exact Or.inl h
  | cons x ks' ih =>
    intro m k' h
    rcases ih (addToMap m x v) k' h with h1 | h1
    · rcases mem_keys_addToMap m x v k' h1 with h2 | h2
      · exact Or.inl h2
      · exact Or.inr (h2 ▸ List.mem_cons_self _ _)
    · exact Or.inr (List.mem_cons_of_mem x h1)

theorem lineCharKeys_some_keys (l ch : List Char) (ks : List (List Char))
    (h : lineCharKeys l = some (ch, ks)) : ∃ content, ks = lineKeys content := by
  unfold lineCharKeys at h
  split at h
  · cases h
  · rename_i content character hp
    split at h
    · split at h
      · injection h with h'
        exact ⟨content, (congrArg Prod.snd h').symm⟩
      · cases h
    · cases h

theorem mem_lineKeys_alpha (content k : List Char) (h : k ∈ lineKeys content) :
    k ≠ [] ∧ ∀ c ∈ k, isLowerAlpha c = true := by
  unfold lineKeys at h
  have h1 := List.mem_filter.mp h
  refine ⟨of_decide_eq_true h1.2, ?_⟩
  obtain ⟨p, hp, hpe⟩ := List.mem_map.mp h1.1
  intro c hc
  rw [← hpe] at hc
  exact mem_normalizeToken_alpha c (pyStrip p) hc

theorem mem_keys_processLine (m : PMap) (l k' : List Char)
    (h : k' ∈ mapKeys (processLine m l)) :
    k' ∈ mapKeys m ∨ (k' ≠ [] ∧ ∀ c ∈ k', isLowerAlpha c = true) := by
  rw [processLine_eq] at h
  cases hl : lineCharKeys l with
  | none =>
    rw [hl] at h
    exact Or.inl h
  | some pr =>
    obtain ⟨ch, ks⟩ := pr
    rw [hl] at h
    rcases mem_keys_foldl_addToMap ks ch m k' h with h1 | h1
    · exact Or.inl h1
    · obtain ⟨content, hc⟩ := lineCharKeys_some_keys l ch ks hl
      exact Or.inr (mem_lineKeys_alpha content k' (hc ▸ h1))

theorem buildMap_keys_alpha (data k : List Char) (h : k ∈ mapKeys (buildMap data)) :
    k ≠ [] ∧ ∀ c ∈ k, isLowerAlpha c = true := by
  unfold buildMap at h
  have haux : ∀ (ls : List (List Char)) (m : PMap) (k' : List Char),
      k' ∈ mapKeys (List.foldl processLine m ls) →
      k' ∈ mapKeys m ∨ (k' ≠ [] ∧ ∀ c ∈ k', isLowerAlpha c = true) := by
    intro ls
    induction ls with
    | nil => intro m k' h1; exact Or.inl h1
    | cons x ls' ih =>
      intro m k' h1
      rcases ih (processLine m x) k' h1 with h2 | h2
      · exact mem_keys_processLine m x k' h2
      · exact Or.inr h2
  rcases haux (splitOnChar '\n' data) [] k h with h1 | h1
  · cases h1
  · exact h1

theorem mapOk_spec (m : PMap) (h : mapOk m = true) (k ch : List Char)
    (cs : List (List Char)) (hm : (k, cs) ∈ m) (hch : ch ∈ cs) :
    ch ≠ [] ∧ ∀ c ∈ ch, isPySpace c = false := by
  unfold mapOk at h
  rw [List.all_eq_true] at h
  have h1 := h (k, cs) hm
  rw [List.all_eq_true] at h1
  have h2 := h1 ch hch
  rw [Bool.and_eq_true] at h2
  constructor
  · intro he
    rw [he] at h2
    exact absurd h2.1 (by decide)
  · intro c hc
    have h3 := (List.all_eq_true.mp h2.2) c hc
    simpa using h3

theorem lookupMap_eq_of_mem (m : PMap) (k : List Char) (cs : List (List Char))
    (hnd : (mapKeys m).Nodup) (hm : (k, cs) ∈ m) : lookupMap m k = cs := by
  induction m with
  | nil => cases hm
  | cons e rest ih =>
    obtain ⟨k0, vs⟩ := e
    have hnd' : (mapKeys rest).Nodup := (List.nodup_cons.mp hnd).2
    have hk0 : k0 ∉ mapKeys rest := (List.nodup_cons.mp hnd).1
    by_cases hk : k0 = k
    · rw [show lookupMap ((k0, vs) :: rest) k = if k0 = k then vs else lookupMap rest k
        from rfl, if_pos hk]
      rcases List.mem_cons.mp hm with h1 | h1
      · exact (congrArg Prod.snd h1).symm
      · exact absurd (hk ▸ List.mem_map.mpr ⟨(k, cs), h1, rfl⟩) hk0
    · rw [show lookupMap ((k0, vs) :: rest) k = if k0 = k then vs else lookupMap rest k
        from rfl, if_neg hk]
      rcases List.mem_cons.mp hm with h1 | h1
      · exact absurd (congrArg Prod.fst h1).symm hk
      · exact ih hnd' h1

theorem parse_fileContent (m : PMap)
    (hknd : (mapKeys m).Nodup)
    (hka : ∀ k ∈ mapKeys m, k ≠ [] ∧ ∀ c ∈ k, isLowerAlpha c = true)
    (hok : mapOk m = true) :
    parseOutput (fileContent m) = canonicalMap m := by
  by_cases hm : mapKeys m = []
  · have hm0 : m = [] := by
      cases m with
      | nil => rfl
      | cons e rest => simp [mapKeys] at hm
    rw [hm0]
    rfl
  · have hset : ∀ p ∈ mapKeys m, ∀ ch ∈ lookupMap m p,
        ch ≠ [] ∧ ∀ c ∈ ch, isPySpace c = false := by
      intro p hp ch hch
      exact mapOk_spec m hok p ch (lookupMap m p) (lookupMap_mem m p hp) hch
    have hlineOf : ∀ p ∈ sortStrs (mapKeys m),
        pySplitWs (serializeEntry m p) = p :: sortStrs (lookupMap m p) := by
      intro p hp
      have hpk := (mem_sortStrs (mapKeys m) p).mp hp
      obtain ⟨hp0, hpa⟩ := hka p hpk
      apply pySplitWs_line
      · exact hp0
      · exact fun c hc => alpha_not_space c (hpa c hc)
      · intro t ht
        exact hset p hpk t ((mem_sortStrs (lookupMap m p) t).mp ht)
    have hnl : ∀ line ∈ outputLines m, '\n' ∉ line := by
      intro line hl
      obtain ⟨p, hp, hpe⟩ := List.mem_map.mp hl
      intro hmem
      rw [← hpe] at hmem
      unfold serializeEntry at hmem
      have hpk := (mem_sortStrs (mapKeys m) p).mp hp
      rcases List.mem_append.mp hmem with h1 | h1
      · exact alpha_ne_newline '\n' ((hka p hpk).2 '\n' h1) rfl
      · rcases List.mem_cons.mp h1 with h2 | h2
        · exact absurd h2 (by decide)
        · rcases mem_joinWith ' ' _ '\n' h2 with h3 | ⟨t, ht, hc⟩
          · exact absurd h3 (by decide)
          · have hws := (hset p hpk t ((mem_sortStrs _ t).mp ht)).2 '\n' hc
            exact absurd hws (by decide)
    have hout_ne : outputLines m ≠ [] := by
      unfold outputLines
      intro h0
      rw [List.map_eq_nil_iff] at h0
      have hperm := sortStrs_perm (mapKeys m)
      rw [h0] at hperm
      exact hm (hperm.symm.eq_nil)
    have hsplit : splitOnChar '\n' (fileContent m) = outputLines m := by
      unfold fileContent
      exact splitOnChar_joinWith '\n' (outputLines m) hnl hout_ne
    unfold parseOutput
    rw [hsplit]
    unfold outputLines canonicalMap
    apply filterMap_map_eq_map
    intro p hp
    rw [hlineOf p hp]

theorem canonicalMap_mem (m : PMap) (k : List Char) (cs : List (List Char)) :
    (k, cs) ∈ canonicalMap m ↔ k ∈ mapKeys m ∧ cs = sortStrs (lookupMap m k) := by
  unfold canonicalMap
  rw [List.mem_map]
  constructor
  · rintro ⟨p, hp, hpe⟩
    have hk : p = k := congrArg Prod.fst hpe
    subst hk
    exact ⟨(mem_sortStrs _ p).mp hp, (congrArg Prod.snd hpe).symm⟩
  · rintro ⟨hk, hcs⟩
    exact ⟨k, (mem_sortStrs _ k).mpr hk, by rw [hcs]⟩

/-! ### Claim C3: the round-trip -/

/-- The counterexample input for C3: a line whose annotation field is
empty, so the empty string is stored in the mapping. -/
def c3Input : List Char := ("U+4E00: yi #").data

/-- Counterexample to claim C3: on the input line whose annotation is
empty, the written line is the key followed by a trailing space, and
whitespace-splitting it loses the empty-string set element, so the
reconstructed mapping equals neither the canonical form of the mapping
that was serialized nor the mapping itself. -/
theorem spec_C3_cex :
    parseOutput (fileContent (buildMap c3Input)) ≠ canonicalMap (buildMap c3Input) ∧
    parseOutput (fileContent (buildMap c3Input)) ≠ buildMap c3Input :=
  ⟨by decide, by decide⟩

/-- Claim C3 as amended: provided every stored character string is
nonempty and whitespace-free (as is the case for ordinary one-character
annotations), splitting each written line on whitespace, with the first
token as key and the remaining tokens as its set, reconstructs exactly
the serialized mapping: the parse equals the mapping's canonical form,
and a character stands under a key in the parse exactly when it does in
the mapping. -/
theorem spec_C3_amended (data : List Char) (h : mapOk (buildMap data) = true) :
    parseOutput (fileContent (buildMap data)) = canonicalMap (buildMap data) ∧
    ∀ k ch, (∃ cs, (k, cs) ∈ parseOutput (fileContent (buildMap data)) ∧ ch ∈ cs) ↔
            (∃ cs, (k, cs) ∈ buildMap data ∧ ch ∈ cs) := by
  have heq := parse_fileContent (buildMap data) (buildMap_keys_nodup data)
    (fun k hk => buildMap_keys_alpha data k hk) h
  refine ⟨heq, ?_⟩
  intro k ch
  rw [heq]
  constructor
  · rintro ⟨cs, hmem, hch⟩
    obtain ⟨hk, hcs⟩ := (canonicalMap_mem _ k cs).mp hmem
    refine ⟨lookupMap (buildMap data) k, lookupMap_mem _ k hk, ?_⟩
    rw [hcs] at hch
    exact (mem_sortStrs _ ch).mp hch
  · rintro ⟨cs, hmem, hch⟩
    have hk : k ∈ mapKeys (buildMap data) := List.mem_map.mpr ⟨(k, cs), hmem, rfl⟩
    refine ⟨sortStrs (lookupMap (buildMap data) k),
      (canonicalMap_mem _ k _).mpr ⟨hk, rfl⟩, ?_⟩
    rw [lookupMap_eq_of_mem _ k cs (buildMap_keys_nodup data) hmem]
    exact (mem_sortStrs _ ch).mpr hch

/-- Witness for C3's amended statement on a well-formed one-line input. -/
theorem spec_C3_amended_witness :
    parseOutput (fileContent (buildMap (("U+4E00: yī # 一").data))) =
      canonicalMap (buildMap (("U+4E00: yī # 一").data)) ∧
    ((∃ cs, (['y', 'i'], cs) ∈ parseOutput (fileContent (buildMap (("U+4E00: yī # 一").data))) ∧
        ['一'] ∈ cs) ↔
      (∃ cs, (['y', 'i'], cs) ∈ buildMap (("U+4E00: yī # 一").data) ∧ ['一'] ∈ cs)) :=
  ⟨(spec_C3_amended (("U+4E00: yī # 一").data) (by decide)).1,
   (spec_C3_amended (("U+4E00: yī # 一").data) (by decide)).2 ['y', 'i'] ['一']⟩

end PinyinGen
